import Mathlib

/-
  Verification of the invoicing core of `facturation_industrialisee`.

  The embedding covers the components the specification singles out:
  the money parser (`parse_currency`) and formatter (`fmt_eur`), the
  line-totals computation (`app.py` / `find_product`), the monthly
  invoice numbering (`get_next_invoice_number_monthly`), and the
  slug/filename convention (`slugify`), translated from `invoicing.py`
  and `app.py`.  Strings are modelled as `List Char` (wrapped in
  `String` at the interfaces), monetary values as `ℚ` (Python floats
  are exact on every value these claims mention), and a raised Python
  exception as `none` in an `Option` result.
-/

/-- Characters removed by Python `str.strip()` on the strings this
program handles: ASCII whitespace plus the non-breaking (U+00A0) and
narrow non-breaking (U+202F) spaces, all of which satisfy Python
`str.isspace()`. -/
def isPySpace (c : Char) : Bool :=
  c == ' ' || c == '\t' || c == '\n' || c == '\r' ||
    c == Char.ofNat 11 || c == Char.ofNat 12 ||
    c == Char.ofNat 0xa0 || c == Char.ofNat 0x202f

/-- Python `s.strip(chars)`: drop the matching characters from both ends. -/
def pyStrip (p : Char → Bool) (l : List Char) : List Char :=
  List.rdropWhile p (l.dropWhile p)

/-- Decimal digit character, for `n < 10`. -/
def digitChar (n : ℕ) : Char :=
  Char.ofNat (48 + n)

/-- Fuel-driven decimal rendering of a natural number (the fuel makes the
definition structurally recursive, so that the kernel can evaluate it). -/
def natDigitsAux : ℕ → ℕ → List Char
  | 0, _ => []
  | fuel + 1, n =>
    if n < 10 then [digitChar n]
    else natDigitsAux fuel (n / 10) ++ [digitChar (n % 10)]

/-- Decimal digit string of a natural number, as produced by Python
`str`/`format` (no sign, no padding, `0 ↦ "0"`). -/
def natDigits (n : ℕ) : List Char :=
  natDigitsAux (n + 1) n

/-- Numeric value of a decimal digit string, as computed by Python `int`. -/
def digitsVal (l : List Char) : ℕ :=
  l.foldl (fun a c => 10 * a + (c.toNat - 48)) 0

/-- Zero-padding to a minimum width, as in Python `f"{n:04d}"`. -/
def padZeros (w : ℕ) (l : List Char) : List Char :=
  List.replicate (w - l.length) '0' ++ l

/-- Python `f"{n:0wd}"` as a `String`. -/
def natPadStr (w n : ℕ) : String :=
  String.mk (padZeros w (natDigits n))

/-- Python `str(n)` for a natural number. -/
def natStr (n : ℕ) : String :=
  String.mk (natDigits n)

/-- Python `s.replace(a, b)` for single characters. -/
def replChar (a b : Char) (l : List Char) : List Char :=
  l.map (fun c => if c == a then b else c)

/-- Modelled restriction of `unicodedata.normalize("NFKC", s)` in
`parse_currency` (invoicing.py line 161): NFKC maps the non-breaking
space U+00A0 and the narrow non-breaking space U+202F to an ordinary
space and is the identity on the other characters occurring in the
currency strings this parser sees (ASCII digits and punctuation, the
euro sign and the typographic apostrophe U+2019 are NFKC-invariant). -/
def nfkcChar (c : Char) : Char :=
  if c == Char.ofNat 0xa0 || c == Char.ofNat 0x202f then ' ' else c

/-- Characters removed by the replace chain of `parse_currency`
(invoicing.py lines 162-170): the euro sign, the space variants, the
typographic apostrophe U+2019 and the ASCII apostrophe.  Replacing each
by the empty string, in sequence, equals one filter. -/
def isStripSym (c : Char) : Bool :=
  c == '€' || c == ' ' || c == Char.ofNat 0xa0 || c == Char.ofNat 0x202f ||
    c == Char.ofNat 0x2019 || c == Char.ofNat 39

/-- Characters kept by `re.sub(r"[^\d\.,\-\+]", "", s)` (invoicing.py
line 172); `\d` is modelled as the ASCII digits, the only digits these
currency strings contain. -/
def keepNumChar (c : Char) : Bool :=
  c.isDigit || c == '.' || c == ',' || c == '-' || c == '+'

/-- Python `re.fullmatch(r"[+-]?\d+", s)` (invoicing.py line 174): an
optional sign followed by at least one digit. -/
def intFullmatch (l : List Char) : Bool :=
  match l with
  | [] => false
  | c :: r =>
    if c == '+' || c == '-' then !r.isEmpty && r.all Char.isDigit
    else (c :: r).all Char.isDigit

/-- Python `s.rfind(c)`: index of the rightmost occurrence, `-1` if absent. -/
def rfindI (c : Char) (l : List Char) : Int :=
  match l.reverse.findIdx? (· == c) with
  | none => -1
  | some i => ((l.length - 1 - i : ℕ) : Int)

/-- Model of Python `float(s)` on the residual strings `parse_currency`
builds, whose alphabet is ASCII digits, `.`, `+` and `-`: an optional
leading sign followed by digits with at most one point and at least one
digit.  `none` models a raised `ValueError`. -/
def pyFloatBody (l : List Char) : Option ℚ :=
  if l.count '.' == 0 then
    if !l.isEmpty && l.all Char.isDigit then some (digitsVal l) else none
  else if l.count '.' == 1 then
    let a := l.takeWhile (fun c => !(c == '.'))
    let b := (l.dropWhile (fun c => !(c == '.'))).tail
    if (a.all Char.isDigit && b.all Char.isDigit) && !(a.isEmpty && b.isEmpty)
    then some ((digitsVal a : ℚ) + (digitsVal b : ℚ) / 10 ^ b.length)
    else none
  else none

/-- Python `float(s)` including the optional sign. -/
def pyFloat (l : List Char) : Option ℚ :=
  match l with
  | '+' :: r => pyFloatBody r
  | '-' :: r => (pyFloatBody r).map (fun q => -q)
  | r => pyFloatBody r

/-- Cleaning pipeline of `parse_currency` (invoicing.py lines 157-172):
strip, NFKC-normalize, remove currency symbols / space variants /
apostrophes, strip again, keep only digits and `.`, `,`, `-`, `+`. -/
def cleanCurrency (l : List Char) : List Char :=
  (pyStrip isPySpace
    (((pyStrip isPySpace l).map nfkcChar).filter
      (fun c => !(isStripSym c)))).filter keepNumChar

/-- Branch logic of `parse_currency` on the cleaned string (invoicing.py
lines 174-189): pure integers; a single comma (French decimal); a single
point (US decimal); otherwise the rightmost of `.`/`,` is the decimal
separator and the other symbol is removed. -/
def parseCleaned (s : List Char) : Option ℚ :=
  if intFullmatch s then pyFloat s
  else if s.count ',' == 1 && s.count '.' == 0 then
    pyFloat (replChar ',' '.' s)
  else if s.count '.' == 1 && s.count ',' == 0 then pyFloat s
  else if rfindI '.' s > rfindI ',' s then
    pyFloat (s.filter (fun c => !(c == ',')))
  else pyFloat (replChar ',' '.' (s.filter (fun c => !(c == '.'))))

/-- Translation of `parse_currency` (invoicing.py lines 142-189).  The
input `none` models Python `None`; the numeric-typed input branch is
not modelled because every caller passes a sheet cell string.  The
output `none` models an uncaught `ValueError` escaping from `float`. -/
def parse_currency (val : Option String) : Option ℚ :=
  match val with
  | none => some 0
  | some v =>
    if (pyStrip isPySpace v.data).isEmpty then some 0
    else parseCleaned (cleanCurrency v.data)

/-- Round half-to-even to an integer, the rounding Python's fixed-point
float formatting performs. -/
def roundHalfEven (q : ℚ) : ℤ :=
  let f := ⌊q⌋
  if q - f < 1 / 2 then f
  else if (1 : ℚ) / 2 < q - f then f + 1
  else if f % 2 == 0 then f else f + 1

/-- Thousands grouping on a reversed digit string: insert `sep` after
every three characters, right to left. -/
def group3Rev (sep : Char) : List Char → List Char
  | a :: b :: c :: d :: rest => a :: b :: c :: sep :: group3Rev sep (d :: rest)
  | l => l

/-- Python's `,` format option: group the digit string in threes from
the right with `sep`. -/
def group3 (sep : Char) (l : List Char) : List Char :=
  (group3Rev sep l.reverse).reverse

/-- Rounded two-decimal numerator of `f"{x:,.2f}"`: the value `|x| * 100`
rounded half-to-even (nonnegative whenever it is used, hence `toNat`). -/
def fmtCents (x : ℚ) : ℕ :=
  (roundHalfEven (100 * |x|)).toNat

/-- Euro part of the two-decimal rendering of `x`. -/
def fmtIntPart (x : ℚ) : ℕ :=
  fmtCents x / 100

/-- Cent part of the two-decimal rendering of `x`. -/
def fmtFracPart (x : ℚ) : ℕ :=
  fmtCents x % 100

/-- Characters of Python `f"{x:,.2f}"`: optional sign, comma-grouped
integer part, point, exactly two fractional digits. -/
def pyFmtF2 (x : ℚ) : List Char :=
  (if x < 0 then ['-'] else []) ++
    group3 ',' (natDigits (fmtIntPart x)) ++
    '.' :: padZeros 2 (natDigits (fmtFracPart x))

/-- Translation of `fmt_eur` (invoicing.py lines 118-120):
`f"{x:,.2f} €".replace(",", " ").replace(".", ",")`. -/
def fmt_eur (x : ℚ) : String :=
  String.mk (replChar '.' ',' (replChar ',' ' ' (pyFmtF2 x ++ [' ', '€'])))

/-- Value of `x` at two-decimal precision (the formatter's half-to-even
rounding, as §4.1 of the specification allows the implementer to pick). -/
def round2 (x : ℚ) : ℚ :=
  (roundHalfEven (100 * x) : ℚ) / 100

/-- Month prefix of `get_next_invoice_number_monthly` (invoicing.py
lines 300-302): `f"FACT-{now.year}{now.month:02d}-"`. -/
def monthPfx (year month : ℕ) : String :=
  "FACT-" ++ natStr year ++ natPadStr 2 month ++ "-"

/-- Start codepoints of the runs of ten Unicode decimal-digit characters
(general category Nd, Unicode 14.0, the table of the CPython runtime this
program targets): each run carries the values 0..9 in codepoint order.
These are the characters Python’s `\d` matches in a `str` pattern and the
digits `int()` accepts. -/
def ndDigitStarts : List ℕ :=
  [0x30, 0x660, 0x6f0, 0x7c0, 0x966, 0x9e6, 0xa66, 0xae6,
   0xb66, 0xbe6, 0xc66, 0xce6, 0xd66, 0xde6, 0xe50, 0xed0,
   0xf20, 0x1040, 0x1090, 0x17e0, 0x1810, 0x1946, 0x19d0, 0x1a80,
   0x1a90, 0x1b50, 0x1bb0, 0x1c40, 0x1c50, 0xa620, 0xa8d0, 0xa900,
   0xa9d0, 0xa9f0, 0xaa50, 0xabf0, 0xff10, 0x104a0, 0x10d30, 0x11066,
   0x110f0, 0x11136, 0x111d0, 0x112f0, 0x11450, 0x114d0, 0x11650, 0x116c0,
   0x11730, 0x118e0, 0x11950, 0x11c50, 0x11d50, 0x11da0, 0x16a60, 0x16ac0,
   0x16b50, 0x1d7ce, 0x1d7d8, 0x1d7e2, 0x1d7ec, 0x1d7f6, 0x1e140, 0x1e2f0,
   0x1e950, 0x1fbf0]

/-- Python’s `\d` on a `str`: a Unicode decimal digit (category Nd). -/
def isPyDigit (c : Char) : Bool :=
  ndDigitStarts.any fun s => decide (s ≤ c.toNat) && decide (c.toNat < s + 10)

/-- Decimal value of a Unicode decimal digit, as `int()` interprets it
(`unicodedata.decimal`): its offset inside its run of ten. -/
def pyDigitVal (c : Char) : ℕ :=
  match ndDigitStarts.find? (fun s => decide (s ≤ c.toNat)
      && decide (c.toNat < s + 10)) with
  | some s => c.toNat - s
  | none => 0

/-- Numeric value of a string of Unicode decimal digits, as computed by
Python `int`. -/
def digitsValPy (l : List Char) : ℕ :=
  l.foldl (fun a c => 10 * a + pyDigitVal c) 0

/-- Condition of the sequence comprehension (invoicing.py lines 312-318):
`n.startswith(prefix) and re.match(rf"^{prefix}\d{{4}}$", n)`.  With
Python `re` semantics, `\d` matches any Unicode decimal digit and `$`
matches at the end of the string or just before one newline at the end,
so `n` is the prefix followed by four decimal digits, optionally
followed by a single final `\n`. -/
def invoiceMatch (pfx : String) (n : String) : Bool :=
  pfx.data.isPrefixOf n.data
    && ((n.data.drop pfx.data.length).length == 4
          && (n.data.drop pfx.data.length).all isPyDigit
        || (n.data.drop pfx.data.length).length == 5
          && ((n.data.drop pfx.data.length).take 4).all isPyDigit
          && (n.data.drop pfx.data.length).getLast? == some (Char.ofNat 10))

/-- Sequence numbers scanned by `get_next_invoice_number_monthly`
(invoicing.py lines 312-318): the parsed suffixes of the matching
entries.  `int(n.replace(prefix, ""))` is modelled as the `int` value of
the four digits after the prefix: under `invoiceMatch` the prefix occurs
in `n` exactly once (it starts with `F`, and the remaining characters
are digits or a final newline), so the replace removes exactly the
leading prefix, and `int` strips the optional trailing newline (it
ignores surrounding whitespace) before reading the four digits. -/
def seqNums (pfx : String) (numbers : List String) : List ℕ :=
  numbers.filterMap fun n =>
    if invoiceMatch pfx n
    then some (digitsValPy ((n.data.drop pfx.data.length).take 4))
    else none

/-- Translation of `get_next_invoice_number_monthly` (invoicing.py lines
297-323).  `datetime.now()` is passed in as `year`/`month`; the column
read is passed as `numbers`, where `none` models any exception raised
while reading the store (the `try`/`except` body sets `next_n = 1`). -/
def get_next_invoice_number_monthly
    (year month : ℕ) (numbers : Option (List String)) : String :=
  let pfx := monthPfx year month
  let next_n : ℕ :=
    match numbers with
    | none => 1
    | some ns =>
      match (seqNums pfx ns).max? with
      | none => 1
      | some m => m + 1
  pfx ++ natPadStr 4 next_n

/-- Next invoice number as §4.3 of the specification words it: prefix
`FACT-` + 4-digit year + 2-digit zero-padded month + `-`; keep the
entries matching exactly the prefix followed by 4 digits; the next
sequence number is the successor of the maximum parsed suffix, or 1 if
there are none; return the prefix plus the zero-padded sequence. -/
def next_invoice_number_spec (year month : ℕ) (numbers : List String) : String :=
  let pfx := "FACT-" ++ natPadStr 4 year ++ natPadStr 2 month ++ "-"
  let suffixes := numbers.filterMap fun n =>
    let d := n.data.drop pfx.data.length
    if pfx.data.isPrefixOf n.data && d.length == 4 && d.all Char.isDigit
    then some (digitsVal d) else none
  let nxt : ℕ :=
    match suffixes.max? with
    | none => 1
    | some m => m + 1
  pfx ++ natPadStr 4 nxt

/-- Next invoice number as the amended claim words it: the same
computation, except that a matching entry is the prefix followed by
exactly four Unicode decimal digits optionally ended by one newline (the
forms `re.match(rf"^{prefix}\d{{4}}$", n)` accepts), and the suffix is
the `int` value of the four digits. -/
def next_invoice_number_spec_py (year month : ℕ) (numbers : List String) :
    String :=
  let pfx := "FACT-" ++ natPadStr 4 year ++ natPadStr 2 month ++ "-"
  let suffixes := numbers.filterMap fun n =>
    let d := n.data.drop pfx.data.length
    if pfx.data.isPrefixOf n.data
        && (d.length == 4 && d.all isPyDigit
            || d.length == 5 && (d.take 4).all isPyDigit
              && d.getLast? == some (Char.ofNat 10))
    then some (digitsValPy (d.take 4)) else none
  let nxt : ℕ :=
    match suffixes.max? with
    | none => 1
    | some m => m + 1
  pfx ++ natPadStr 4 nxt

/-- Line totals of a catalog product (app.py lines 218-222 together with
`find_product`, invoicing.py line 399: the effective unit gross price is
the unit net price when the product is tax-exempt, the recorded unit
gross price otherwise).  Returns `(net, tax, gross)`. -/
def compute_totals (unit_net unit_gross : ℚ) (quantity : ℕ)
    (tax_exempt : Bool) : ℚ × ℚ × ℚ :=
  let prix_ttc : ℚ := if tax_exempt then unit_net else unit_gross
  let montant_ht := unit_net * quantity
  let montant_ttc := prix_ttc * quantity
  (montant_ht, montant_ttc - montant_ht, montant_ttc)

/-- Python `pat in s` substring test. -/
def strContains (l pat : List Char) : Bool :=
  if pat.isPrefixOf l then true
  else
    match l with
    | [] => false
    | _ :: t => strContains t pat

/-- Variable-amount product detection (app.py lines 168-171):
`product_obj.id == "PAP variable" or "STAGE PAP" in product_obj.libelle.upper()`.
`str.upper()` is modelled as ASCII upcasing, faithful on the label
alphabet the `"STAGE PAP"` test can match. -/
def is_variable_product (id libelle : String) : Bool :=
  id == "PAP variable" || strContains (libelle.data.map Char.toUpper) "STAGE PAP".data

/-- Variable-amount totals (app.py lines 213-217): manually entered net
times quantity, tax at the fixed 20 % policy, gross as their sum.
Returns `(net, tax, gross)`. -/
def variable_totals (montant_ht_manuel : ℚ) (qty : ℕ) : ℚ × ℚ × ℚ :=
  let montant_ht := montant_ht_manuel * qty
  let montant_tva := montant_ht * 0.20
  (montant_ht, montant_tva, montant_ht + montant_tva)

/-- Lower-case characters and ASCII digits, the class `[a-z0-9]` of
`slugify`. -/
def isSlugChar (c : Char) : Bool :=
  ('a' ≤ c && c ≤ 'z') || ('0' ≤ c && c ≤ '9')

/-- Python `re.sub(p+, r, s)` for a character class `p`: replace every
maximal run of `p`-characters by the single character `r`. -/
def subRuns (p : Char → Bool) (r : Char) : List Char → List Char
  | [] => []
  | c :: cs =>
    if p c then r :: subRuns p r (cs.dropWhile p)
    else c :: subRuns p r cs
termination_by l => l.length
decreasing_by
  · simp only [List.length_cons]
    exact Nat.lt_succ_of_le
      (List.Sublist.length_le (List.IsSuffix.sublist (List.dropWhile_suffix p)))
  · simp

/-- Translation of `slugify` (invoicing.py lines 112-115):
lower-case and strip, replace runs of non-`[a-z0-9]` by `_`, collapse
runs of `_`, strip `_` from both ends.  `str.lower()` is modelled as
ASCII downcasing: a non-ASCII letter stays non-`[a-z0-9]` either way and
is replaced by an underscore exactly as in Python. -/
def slugify (s : String) : String :=
  let l0 := pyStrip isPySpace (s.data.map Char.toLower)
  let l1 := subRuns (fun c => !isSlugChar c) '_' l0
  let l2 := subRuns (fun c => c == '_') '_' l1
  String.mk (pyStrip (fun c => c == '_') l2)

/-- Slug as §6 of the specification words it: lower-case, replace any
run of non-alphanumeric characters with a single underscore, and trim
leading and trailing underscores. -/
def slugify_spec (s : String) : String :=
  String.mk (pyStrip (fun c => c == '_')
    (subRuns (fun c => !isSlugChar c) '_' (s.data.map Char.toLower)))

/-- Generated document filename (invoicing.py line 693, app.py line 264):
`f"{invoice_number}_{slugify(client.nom)}_{slugify(client.prenom)}.pdf"`. -/
def invoice_filename (invoice_number nom prenom : String) : String :=
  invoice_number ++ "_" ++ slugify nom ++ "_" ++ slugify prenom ++ ".pdf"

/-! ### Digit-string lemmas -/

theorem digitsVal_foldl (l : List Char) (a : ℕ) :
    List.foldl (fun a c => 10 * a + (c.toNat - 48)) a l
      = a * 10 ^ l.length + digitsVal l := by
  induction l generalizing a with
  | nil => simp [digitsVal]
  | cons c t ih =>
    simp only [digitsVal, List.foldl_cons, List.length_cons]
    rw [ih, ih (10 * 0 + (c.toNat - 48))]
    ring

theorem digitsVal_append (x y : List Char) :
    digitsVal (x ++ y) = digitsVal x * 10 ^ y.length + digitsVal y := by
  unfold digitsVal
  rw [List.foldl_append, digitsVal_foldl]
  rfl

theorem digitChar_toNat (n : ℕ) (h : n < 10) : (digitChar n).toNat = 48 + n := by
  interval_cases n <;> rfl

theorem digitChar_isDigit (n : ℕ) (h : n < 10) : (digitChar n).isDigit = true := by
  interval_cases n <;> rfl

theorem digitsVal_singleton (c : Char) : digitsVal [c] = c.toNat - 48 := by
  simp [digitsVal]

theorem natDigitsAux_ne_nil :
    ∀ fuel n, n < fuel → natDigitsAux fuel n ≠ [] := by
  intro fuel
  induction fuel with
  | zero => omega
  | succ f _ =>
    intro n _
    by_cases h10 : n < 10 <;> simp [natDigitsAux, h10]

theorem natDigitsAux_isDigit :
    ∀ fuel n, n < fuel → ∀ c ∈ natDigitsAux fuel n, c.isDigit = true := by
  intro fuel
  induction fuel with
  | zero => omega
  | succ f ih =>
    intro n hn c hc
    by_cases h10 : n < 10
    · simp only [natDigitsAux, if_pos h10, List.mem_singleton] at hc
      subst hc
      exact digitChar_isDigit n h10
    · simp only [natDigitsAux, if_neg h10, List.mem_append,
        List.mem_singleton] at hc
      rcases hc with hc | hc
      · exact ih (n / 10) (by omega) c hc
      · subst hc
        exact digitChar_isDigit (n % 10) (Nat.mod_lt _ (by omega))

theorem natDigitsAux_val :
    ∀ fuel n, n < fuel → digitsVal (natDigitsAux fuel n) = n := by
  intro fuel
  induction fuel with
  | zero => omega
  | succ f ih =>
    intro n hn
    by_cases h10 : n < 10
    · simp [natDigitsAux, h10, digitsVal_singleton, digitChar_toNat n h10]
    · rw [natDigitsAux, if_neg h10, digitsVal_append, ih (n / 10) (by omega),
        digitsVal_singleton, digitChar_toNat (n % 10) (Nat.mod_lt _ (by omega))]
      simp only [List.length_singleton, pow_one]
      omega

theorem natDigitsAux_len_le :
    ∀ fuel n k, n < fuel → n < 10 ^ k → 1 ≤ k →
      (natDigitsAux fuel n).length ≤ k := by
  intro fuel
  induction fuel with
  | zero => omega
  | succ f ih =>
    intro n k hn hk hk1
    by_cases h10 : n < 10
    · simpa [natDigitsAux, h10] using hk1
    · rw [natDigitsAux, if_neg h10]
      have hk2 : 2 ≤ k := by
        by_contra hcon
        have : k = 1 := by omega
        subst this
        simp at hk
        omega
      have hdiv : n / 10 < 10 ^ (k - 1) := by
        have : n < 10 ^ (k - 1) * 10 := by
          have : 10 ^ (k - 1) * 10 = 10 ^ k := by
            rw [← pow_succ]
            congr 1
            omega
          omega
        omega
      have := ih (n / 10) (k - 1) (by omega) hdiv (by omega)
      simp only [List.length_append, List.length_singleton]
      omega

theorem natDigitsAux_len_ge :
    ∀ fuel n k, n < fuel → 10 ^ k ≤ n →
      k + 1 ≤ (natDigitsAux fuel n).length := by
  intro fuel
  induction fuel with
  | zero => omega
  | succ f ih =>
    intro n k hn hk
    by_cases h10 : n < 10
    · have : k = 0 := by
        by_contra hcon
        have : 10 ≤ 10 ^ k := by
          calc 10 = 10 ^ 1 := (pow_one 10).symm
          _ ≤ 10 ^ k := Nat.pow_le_pow_right (by omega) (by omega)
        omega
      subst this
      simp [natDigitsAux, h10]
    · rw [natDigitsAux, if_neg h10]
      simp only [List.length_append, List.length_singleton]
      rcases Nat.eq_zero_or_pos k with hk0 | hk1
      · have := natDigitsAux_ne_nil f (n / 10) (by omega)
        have : 1 ≤ (natDigitsAux f (n / 10)).length :=
          Nat.one_le_iff_ne_zero.mpr (by simpa [List.length_eq_zero] using this)
        omega
      · have hdiv : 10 ^ (k - 1) ≤ n / 10 := by
          have h1 : 10 ^ (k - 1) * 10 = 10 ^ k := by
            rw [← pow_succ]
            congr 1
            omega
          have := Nat.div_le_div_right (c := 10) hk
          rw [← h1] at this
          calc 10 ^ (k - 1) = 10 ^ (k - 1) * 10 / 10 := by omega
          _ ≤ n / 10 := this
        have := ih (n / 10) (k - 1) (by omega) hdiv
        omega

theorem natDigits_ne_nil (n : ℕ) : natDigits n ≠ [] :=
  natDigitsAux_ne_nil (n + 1) n (Nat.lt_succ_self n)

theorem natDigits_isDigit (n : ℕ) : ∀ c ∈ natDigits n, c.isDigit = true :=
  natDigitsAux_isDigit (n + 1) n (Nat.lt_succ_self n)

theorem digitsVal_natDigits (n : ℕ) : digitsVal (natDigits n) = n :=
  natDigitsAux_val (n + 1) n (Nat.lt_succ_self n)

theorem natDigits_len_le (n k : ℕ) (hk : n < 10 ^ k) (h1 : 1 ≤ k) :
    (natDigits n).length ≤ k :=
  natDigitsAux_len_le (n + 1) n k (Nat.lt_succ_self n) hk h1

theorem natDigits_len_ge (n k : ℕ) (hk : 10 ^ k ≤ n) :
    k + 1 ≤ (natDigits n).length :=
  natDigitsAux_len_ge (n + 1) n k (Nat.lt_succ_self n) hk

theorem padZeros_of_len_ge (w : ℕ) (l : List Char) (h : w ≤ l.length) :
    padZeros w l = l := by
  simp [padZeros, Nat.sub_eq_zero_of_le h]

theorem natPadStr_eq_natStr (w n : ℕ) (h : 10 ^ (w - 1) ≤ n) (hw : 1 ≤ w) :
    natPadStr w n = natStr n := by
  unfold natPadStr natStr
  rw [padZeros_of_len_ge]
  have := natDigits_len_ge n (w - 1) h
  omega

/-! ### C1: line totals invariant -/

/-- C1.  For every unit net price, unit gross price, quantity and
tax-exemption flag, the computed `(net, tax, gross)` totals satisfy
`net = unit_net * quantity`, `gross = unit_net * quantity` when exempt
and `unit_gross * quantity` otherwise, `tax = gross - net`, hence
`gross = net + tax` exactly and `tax = 0` for a tax-exempt product; and
`compute_totals 100 120 3 false = (300, 60, 360)`. -/
theorem compute_totals_invariant (un ug : ℚ) (q : ℕ) (te : Bool) :
    (compute_totals un ug q te).1 = un * q
    ∧ (compute_totals un ug q te).2.2 = (if te then un * q else ug * q)
    ∧ (compute_totals un ug q te).2.1
        = (compute_totals un ug q te).2.2 - (compute_totals un ug q te).1
    ∧ (compute_totals un ug q te).2.2
        = (compute_totals un ug q te).1 + (compute_totals un ug q te).2.1
    ∧ (compute_totals un ug q true).2.1 = 0
    ∧ compute_totals 100 120 3 false = (300, 60, 360) := by
  refine ⟨rfl, ?_, rfl, by simp [compute_totals], by simp [compute_totals], ?_⟩
  · cases te <;> simp [compute_totals]
  · simp only [compute_totals, Prod.mk.injEq]
    norm_num

/-! ### C5: variable-amount mode -/

/-- C5.  Variable-amount mode is selected when the product id is
`"PAP variable"` or the upper-cased label contains `"STAGE PAP"`; it
takes the manually entered net amount and derives `tax = net * 0.20`
and `gross = net + tax`; for a manually entered net of 200.00 (at
quantity 1) the tax is 40.00 and the gross 240.00 exactly. -/
theorem variable_amount_mode (id libelle : String) (m : ℚ) (q : ℕ)
    (hsub : strContains (libelle.data.map Char.toUpper) "STAGE PAP".data = true) :
    is_variable_product "PAP variable" libelle = true
    ∧ is_variable_product id libelle = true
    ∧ (variable_totals m q).2.1 = (variable_totals m q).1 * 0.20
    ∧ (variable_totals m q).2.2
        = (variable_totals m q).1 + (variable_totals m q).2.1
    ∧ (variable_totals m 1).1 = m
    ∧ variable_totals 200 1 = (200, 40, 240) := by
  refine ⟨by simp [is_variable_product], by simp [is_variable_product, hsub],
    rfl, rfl, by simp [variable_totals], ?_⟩
  simp only [variable_totals, Prod.mk.injEq]
  norm_num

/-- Witness for `variable_amount_mode` at a concrete product and amount. -/
theorem variable_amount_mode_witness :
    is_variable_product "X1" "Un STAGE PAP complet" = true
    ∧ variable_totals 200 1 = (200, 40, 240) := by
  have h := variable_amount_mode "X1" "Un STAGE PAP complet" 200 1 (by decide)
  exact ⟨h.2.1, h.2.2.2.2.2⟩

/-! ### C4: parse_currency on empty, null and malformed input -/

/-- C4 counterexample.  `parse_currency` is not total on strings: on
`"abc"` the cleaned numeric residue is empty, `float("")` raises
`ValueError` (modelled as `none`), and in particular the result is not
the claimed value 0. -/
theorem parse_currency_abc_raises :
    parse_currency (some "abc") = none
    ∧ parse_currency (some "abc") ≠ some 0 := by
  refine ⟨by decide, by decide⟩

/-- C4 amended.  `parse_currency("") = 0` and `parse_currency(None) = 0`;
but malformed input does not always degrade to 0: a string whose cleaned
numeric residue is not a valid float literal (such as `"abc"` or
`"1,2,3"`) makes `parse_currency` raise `ValueError` (modelled as
`none`) because `invoicing.py` has no exception handler around `float`. -/
theorem parse_currency_empty_null_and_malformed :
    parse_currency (some "") = some 0
    ∧ parse_currency none = some 0
    ∧ parse_currency (some "abc") = none
    ∧ parse_currency (some "1,2,3") = none := by
  refine ⟨by decide, rfl, by decide, by decide⟩

/-! ### C9 and C10: numbering edge behaviour -/

/-- C9.  When reading the existing numbers from the store raises (the
`none` input), `get_next_invoice_number_monthly` silently restarts the
monthly sequence: it returns the current-month prefix followed by
`"0001"`. -/
theorem invoice_number_on_read_error (year month : ℕ) :
    get_next_invoice_number_monthly year month none
      = monthPfx year month ++ "0001" := by
  show monthPfx year month ++ natPadStr 4 1 = monthPfx year month ++ "0001"
  exact congrArg (monthPfx year month ++ ·) (by decide)

/-- C10.  When the maximum existing sequence number of the month is
9999, the next number is the prefix followed by the five-character
suffix `"10000"`: the counter widens instead of wrapping or failing. -/
theorem invoice_counter_widens (year month : ℕ) (ns : List String)
    (h : (seqNums (monthPfx year month) ns).max? = some 9999) :
    get_next_invoice_number_monthly year month (some ns)
      = monthPfx year month ++ "10000" := by
  simp only [get_next_invoice_number_monthly, h]
  exact congrArg (monthPfx year month ++ ·) (by decide)

/-- Witness for `invoice_counter_widens`: a month whose last issued
number is `FACT-202512-9999`. -/
theorem invoice_counter_widens_witness :
    get_next_invoice_number_monthly 2025 12 (some ["FACT-202512-9999"])
      = monthPfx 2025 12 ++ "10000" :=
  invoice_counter_widens 2025 12 ["FACT-202512-9999"] (by decide)

/-! ### C2: the numbering counterexample and amended refinement -/

/-- C2 counterexample.  The claim says entries whose suffix is not
exactly four digits are ignored; but Python’s `$` also matches just
before one newline at the end of the string and `int()` strips that
newline, so the program counts `"FACT-202512-0005\n"` and answers
`FACT-202512-0006`, while the claimed computation
(`next_invoice_number_spec`) ignores the entry and answers
`FACT-202512-0001`. -/
theorem next_invoice_number_newline_divergence :
    get_next_invoice_number_monthly 2025 12 (some ["FACT-202512-0005\n"])
      = "FACT-202512-0006"
    ∧ next_invoice_number_spec 2025 12 ["FACT-202512-0005\n"]
      = "FACT-202512-0001"
    ∧ get_next_invoice_number_monthly 2025 12 (some ["FACT-202512-0005\n"])
      ≠ next_invoice_number_spec 2025 12 ["FACT-202512-0005\n"] :=
  ⟨by decide, by decide, by decide⟩

/-- C2 amended.  For every list of existing numbers and date with a
four-digit year, `get_next_invoice_number_monthly` computes the prefix
`FACT-YYYYMM-` plus the zero-padded successor of the maximal suffix
among the entries matching the prefix followed by exactly four Unicode
decimal digits with at most one trailing newline — the forms Python’s
regex and `int` accept — or `0001` if there are none
(`next_invoice_number_spec_py`); entries of other months and other
malformed entries are ignored; with the listed concrete cases, the
trailing-newline entry now counted. -/
theorem next_invoice_number_amended :
    (∀ year month ns, 1000 ≤ year → year ≤ 9999 →
      get_next_invoice_number_monthly year month (some ns)
        = next_invoice_number_spec_py year month ns)
    ∧ get_next_invoice_number_monthly 2025 12 (some []) = "FACT-202512-0001"
    ∧ get_next_invoice_number_monthly 2025 12
        (some ["FACT-202512-0001", "FACT-202512-0003", "FACT-202511-0099"])
        = "FACT-202512-0004"
    ∧ get_next_invoice_number_monthly 2025 12
        (some ["FACT-202512-00010", "BAD-202512-0007", "FACT-202512-12"])
        = "FACT-202512-0001"
    ∧ get_next_invoice_number_monthly 2025 12
        (some ["FACT-202512-0005\n"]) = "FACT-202512-0006" := by
  refine ⟨?_, by decide, by decide, by decide, by decide⟩
  intro year month ns h1 h2
  have hy : natPadStr 4 year = natStr year := by
    refine natPadStr_eq_natStr 4 year ?_ (by norm_num)
    norm_num
    omega
  simp only [get_next_invoice_number_monthly, next_invoice_number_spec_py,
    monthPfx, seqNums, invoiceMatch, hy]

/-- Witness for the universally quantified part of
`next_invoice_number_amended`, at December 2025 with a counted
trailing-newline entry and an ignored cross-month entry. -/
theorem next_invoice_number_amended_witness :
    get_next_invoice_number_monthly 2025 12
        (some ["FACT-202512-0001", "FACT-202512-0005\n", "FACT-202511-0099"])
      = next_invoice_number_spec_py 2025 12
          ["FACT-202512-0001", "FACT-202512-0005\n", "FACT-202511-0099"] :=
  next_invoice_number_amended.1 2025 12 _ (by norm_num) (by norm_num)

/-! ### Character and list helpers -/

theorem ne_of_isDigit {c d : Char} (hc : c.isDigit = true)
    (hd : d.isDigit = false) : c ≠ d := by
  intro h
  rw [h, hd] at hc
  cases hc

theorem list_map_self {f : Char → Char} {l : List Char}
    (h : ∀ c ∈ l, f c = c) : l.map f = l := by
  induction l with
  | nil => rfl
  | cons c t ih =>
    simp only [List.map_cons, h c (List.mem_cons_self c t), List.cons.injEq,
      true_and]
    exact ih fun d hd => h d (List.mem_cons_of_mem c hd)

theorem replChar_append (a b : Char) (x y : List Char) :
    replChar a b (x ++ y) = replChar a b x ++ replChar a b y :=
  List.map_append _ x y

theorem replChar_of_not_mem {a : Char} (b : Char) {l : List Char}
    (h : a ∉ l) : replChar a b l = l := by
  refine list_map_self fun c hc => ?_
  have hne : (c == a) = false := by
    simp only [beq_eq_false_iff_ne, ne_eq]
    rintro rfl
    exact h hc
  simp [hne]

theorem replChar_cons (a b c : Char) (l : List Char) :
    replChar a b (c :: l) = (if c == a then b else c) :: replChar a b l :=
  rfl

theorem count_eq_zero_of_all {c : Char} {l : List Char}
    (h : ∀ d ∈ l, d ≠ c) : l.count c = 0 :=
  List.count_eq_zero.mpr fun hc => h c hc rfl

/-! ### group3 lemmas -/


theorem group3Rev_cons4 (sep a b c d : Char) (rest : List Char) :
    group3Rev sep (a :: b :: c :: d :: rest)
      = a :: b :: c :: sep :: group3Rev sep (d :: rest) :=
  rfl

theorem group3Rev_eq_self {sep : Char} {l : List Char}
    (h : ∀ a b c d rest, l ≠ a :: b :: c :: d :: rest) :
    group3Rev sep l = l := by
  rcases l with _ | ⟨a, _ | ⟨b, _ | ⟨c, _ | ⟨d, rest⟩⟩⟩⟩
  · rfl
  · rfl
  · rfl
  · rfl
  · exact absurd rfl (h a b c d rest)

theorem group3Rev_ne_nil (sep : Char) (l : List Char) (h : l ≠ []) :
    group3Rev sep l ≠ [] := by
  unfold group3Rev
  split
  · simp
  · exact h

theorem getLast?_cons_ne {x : Char} {xs : List Char} (h : xs ≠ []) :
    (x :: xs).getLast? = xs.getLast? := by
  cases xs with
  | nil => exact absurd rfl h
  | cons y ys => exact List.getLast?_cons_cons

theorem getLast?_group3Rev (sep : Char) (l : List Char) :
    (group3Rev sep l).getLast? = l.getLast? := by
  induction l using group3Rev.induct sep with
  | case1 a b c d rest ih =>
    have hne : group3Rev sep (d :: rest) ≠ [] :=
      group3Rev_ne_nil sep _ (by simp)
    have hL : (a :: b :: c :: sep :: group3Rev sep (d :: rest)).getLast?
        = (group3Rev sep (d :: rest)).getLast? := by
      rw [getLast?_cons_ne (by simp), getLast?_cons_ne (by simp),
        getLast?_cons_ne (by simp [hne]), getLast?_cons_ne hne]
    have hR : (a :: b :: c :: d :: rest).getLast? = (d :: rest).getLast? := by
      rw [getLast?_cons_ne (by simp), getLast?_cons_ne (by simp),
        getLast?_cons_ne (by simp)]
    rw [group3Rev_cons4, hL, ih, hR]
  | case2 l h => rw [group3Rev_eq_self fun a b c d rest he => h a b c d rest he]

theorem mem_group3Rev {sep : Char} {l : List Char} {c : Char}
    (h : c ∈ group3Rev sep l) : c ∈ l ∨ c = sep := by
  induction l using group3Rev.induct sep with
  | case1 a b c' d rest ih =>
    rw [group3Rev_cons4] at h
    simp only [List.mem_cons] at h
    rcases h with rfl | rfl | rfl | rfl | h
    · exact Or.inl (by simp)
    · exact Or.inl (by simp)
    · exact Or.inl (by simp)
    · exact Or.inr rfl
    · rcases ih h with hm | hs
      · refine Or.inl ?_
        simp only [List.mem_cons] at hm ⊢
        tauto
      · exact Or.inr hs
  | case2 l hsh =>
    rw [group3Rev_eq_self fun a b c' d rest he => hsh a b c' d rest he] at h
    exact Or.inl h

theorem replChar_group3Rev {a : Char} (b : Char) {l : List Char}
    (h : a ∉ l) : replChar a b (group3Rev a l) = group3Rev b l := by
  induction l using group3Rev.induct a with
  | case1 x y z d rest ih =>
    rw [group3Rev_cons4, group3Rev_cons4]
    simp only [List.mem_cons, not_or] at h
    obtain ⟨hx, hy, hz, hrest⟩ := h
    rw [replChar_cons, replChar_cons, replChar_cons, replChar_cons]
    rw [if_neg (by simp only [beq_iff_eq]; exact fun e => hx e.symm),
      if_neg (by simp only [beq_iff_eq]; exact fun e => hy e.symm),
      if_neg (by simp only [beq_iff_eq]; exact fun e => hz e.symm),
      if_pos (by simp)]
    rw [ih (by simpa using hrest)]
  | case2 l hsh =>
    rw [group3Rev_eq_self fun x y z d rest he => hsh x y z d rest he,
      group3Rev_eq_self fun x y z d rest he => hsh x y z d rest he]
    exact replChar_of_not_mem b h

theorem filter_group3Rev {q : Char → Bool} {sep : Char} (hsep : q sep = false)
    (l : List Char) : (group3Rev sep l).filter q = l.filter q := by
  induction l using group3Rev.induct sep with
  | case1 a b c d rest ih =>
    rw [group3Rev_cons4]
    simp [List.filter_cons, hsep, ih]
  | case2 l hsh =>
    rw [group3Rev_eq_self fun a b c d rest he => hsh a b c d rest he]

theorem mem_group3 {sep : Char} {l : List Char} {c : Char}
    (h : c ∈ group3 sep l) : c ∈ l ∨ c = sep := by
  unfold group3 at h
  rw [List.mem_reverse] at h
  rcases mem_group3Rev h with hm | hs
  · exact Or.inl (List.mem_reverse.mp hm)
  · exact Or.inr hs

theorem group3_ne_nil (sep : Char) {l : List Char} (h : l ≠ []) :
    group3 sep l ≠ [] := by
  unfold group3
  simp only [ne_eq, List.reverse_eq_nil_iff]
  exact group3Rev_ne_nil sep _ (by simpa using h)

theorem head?_group3 (sep : Char) (l : List Char) :
    (group3 sep l).head? = l.head? := by
  unfold group3
  rw [List.head?_reverse, getLast?_group3Rev, ← List.head?_reverse,
    List.reverse_reverse]

theorem replChar_group3 {a : Char} (b : Char) {l : List Char} (h : a ∉ l) :
    replChar a b (group3 a l) = group3 b l := by
  unfold group3 replChar
  rw [List.map_reverse]
  rw [show (group3Rev a l.reverse).map (fun c => if c == a then b else c)
      = replChar a b (group3Rev a l.reverse) from rfl]
  rw [replChar_group3Rev b (by simpa using h)]

theorem filter_group3 {q : Char → Bool} {sep : Char} (hsep : q sep = false)
    (l : List Char) (hl : ∀ c ∈ l, q c = true) :
    (group3 sep l).filter q = l := by
  unfold group3
  rw [List.filter_reverse, filter_group3Rev hsep, ← List.filter_reverse,
    List.reverse_reverse, List.filter_eq_self.mpr hl]

/-! ### padZeros and formatter lemmas -/

theorem not_mem_of_digits {l : List Char} (hl : ∀ c ∈ l, c.isDigit = true)
    {d : Char} (hd : d.isDigit = false) : d ∉ l :=
  fun hm => absurd (hl d hm) (by simp [hd])

theorem padZeros_isDigit (w n : ℕ) :
    ∀ c ∈ padZeros w (natDigits n), c.isDigit = true := by
  intro c hc
  unfold padZeros at hc
  rcases List.mem_append.mp hc with hr | hm
  · rw [List.eq_of_mem_replicate hr]
    decide
  · exact natDigits_isDigit n c hm

theorem padZeros_length (w : ℕ) (l : List Char) :
    (padZeros w l).length = max w l.length := by
  simp only [padZeros, List.length_append, List.length_replicate]
  omega

theorem digitsVal_replicate_zero (k : ℕ) :
    digitsVal (List.replicate k '0') = 0 := by
  induction k with
  | zero => rfl
  | succ m ih =>
    rw [List.replicate_succ, show ('0' :: List.replicate m '0')
        = ['0'] ++ List.replicate m '0' from rfl, digitsVal_append, ih]
    simp [digitsVal_singleton]

theorem digitsVal_padZeros (w : ℕ) (l : List Char) :
    digitsVal (padZeros w l) = digitsVal l := by
  unfold padZeros
  rw [digitsVal_append, digitsVal_replicate_zero]
  ring

theorem padZeros_ne_nil (w n : ℕ) : padZeros w (natDigits n) ≠ [] := by
  unfold padZeros
  simp [natDigits_ne_nil n]

theorem fmtFracPart_lt (x : ℚ) : fmtFracPart x < 100 :=
  Nat.mod_lt _ (by omega)

theorem padZeros_frac_length (x : ℚ) :
    (padZeros 2 (natDigits (fmtFracPart x))).length = 2 := by
  rw [padZeros_length]
  have h2 : (natDigits (fmtFracPart x)).length ≤ 2 :=
    natDigits_len_le _ 2 (by have := fmtFracPart_lt x; norm_num; omega) (by norm_num)
  omega

/-- Shape of the formatted string: optional sign, space-grouped integer
digits, comma, exactly two fraction digits, then a space and the euro
sign. -/
theorem fmt_eur_data (x : ℚ) :
    (fmt_eur x).data
      = (if x < 0 then ['-'] else []) ++ group3 ' ' (natDigits (fmtIntPart x))
        ++ ',' :: padZeros 2 (natDigits (fmtFracPart x)) ++ [' ', '€'] := by
  have hD : ∀ c ∈ natDigits (fmtIntPart x), c.isDigit = true :=
    natDigits_isDigit _
  have hF : ∀ c ∈ padZeros 2 (natDigits (fmtFracPart x)), c.isDigit = true :=
    padZeros_isDigit 2 _
  have hDc : (',' : Char) ∉ natDigits (fmtIntPart x) :=
    not_mem_of_digits hD (by decide)
  have hFc : (',' : Char) ∉ padZeros 2 (natDigits (fmtFracPart x)) :=
    not_mem_of_digits hF (by decide)
  have hFd : ('.' : Char) ∉ padZeros 2 (natDigits (fmtFracPart x)) :=
    not_mem_of_digits hF (by decide)
  have hGd : ('.' : Char) ∉ group3 ' ' (natDigits (fmtIntPart x)) := by
    intro hm
    rcases mem_group3 hm with hmem | he
    · exact not_mem_of_digits hD (by decide) hmem
    · cases he
  have hsign : ∀ a b : Char, a ≠ '-' →
      replChar a b (if x < 0 then ['-'] else [])
        = (if x < 0 then ['-'] else []) := by
    intro a b ha
    by_cases hx : x < 0
    · rw [if_pos hx, replChar_of_not_mem b (by simpa using ha)]
    · rw [if_neg hx]
      rfl
  show replChar '.' ',' (replChar ',' ' '
      (((if x < 0 then ['-'] else []) ++ group3 ',' (natDigits (fmtIntPart x))
        ++ '.' :: padZeros 2 (natDigits (fmtFracPart x))) ++ [' ', '€'])) = _
  simp only [replChar_append]
  rw [hsign ',' ' ' (by decide), replChar_group3 ' ' hDc,
    show replChar ',' ' ' ('.' :: padZeros 2 (natDigits (fmtFracPart x)))
      = '.' :: replChar ',' ' ' (padZeros 2 (natDigits (fmtFracPart x)))
      from rfl,
    replChar_of_not_mem ' ' hFc,
    show replChar ',' ' ' [' ', '€'] = [' ', '€'] from rfl]
  rw [hsign '.' ',' (by decide), replChar_of_not_mem ',' hGd,
    show replChar '.' ',' ('.' :: padZeros 2 (natDigits (fmtFracPart x)))
      = ',' :: replChar '.' ',' (padZeros 2 (natDigits (fmtFracPart x)))
      from rfl,
    replChar_of_not_mem ',' hFd,
    show replChar '.' ',' [' ', '€'] = [' ', '€'] from rfl]

theorem roundHalfEven_natCast (n : ℕ) : roundHalfEven (n : ℚ) = n := by
  simp only [roundHalfEven, Int.floor_natCast, Int.cast_natCast, sub_self]
  norm_num

theorem roundHalfEven_nonneg {q : ℚ} (h : 0 ≤ q) : 0 ≤ roundHalfEven q := by
  have hf : (0 : ℤ) ≤ ⌊q⌋ := Int.floor_nonneg.mpr h
  simp only [roundHalfEven]
  split
  · exact hf
  split
  · omega
  split
  · exact hf
  · omega

theorem fmtCents_cast (x : ℚ) (hx : 0 ≤ x) :
    ((fmtCents x : ℕ) : ℚ) = ((roundHalfEven (100 * x) : ℤ) : ℚ) := by
  have h0 : (0 : ℤ) ≤ roundHalfEven (100 * x) :=
    roundHalfEven_nonneg (by positivity)
  unfold fmtCents
  rw [abs_of_nonneg hx]
  exact_mod_cast Int.toNat_of_nonneg h0

/-! ### C7: the formatter's output shape -/

/-- C7.  For every amount `x`, `fmt_eur x` is an optional sign, the
integer part grouped in threes by ordinary spaces, a comma, exactly two
decimal digits, then a space and the euro sign; and
`fmt_eur 1234.5 = "1 234,50 €"`. -/
theorem fmt_eur_shape (x : ℚ) :
    (fmt_eur x).data
      = (if x < 0 then ['-'] else []) ++ group3 ' ' (natDigits (fmtIntPart x))
        ++ ',' :: padZeros 2 (natDigits (fmtFracPart x)) ++ [' ', '€']
    ∧ (padZeros 2 (natDigits (fmtFracPart x))).length = 2
    ∧ (padZeros 2 (natDigits (fmtFracPart x))).all Char.isDigit = true
    ∧ fmt_eur 1234.5 = "1 234,50 €" := by
  refine ⟨fmt_eur_data x, padZeros_frac_length x,
    List.all_eq_true.mpr (padZeros_isDigit 2 _), ?_⟩
  have habs : (100 : ℚ) * |(1234.5 : ℚ)| = ((123450 : ℕ) : ℚ) := by
    rw [abs_of_nonneg (by norm_num)]
    norm_num
  have hc : fmtCents (1234.5 : ℚ) = 123450 := by
    unfold fmtCents
    rw [habs, roundHalfEven_natCast]
    simp
  have hip : fmtIntPart (1234.5 : ℚ) = 1234 := by
    unfold fmtIntPart
    rw [hc]
  have hfp : fmtFracPart (1234.5 : ℚ) = 50 := by
    unfold fmtFracPart
    rw [hc]
  refine String.ext ?_
  rw [fmt_eur_data, hip, hfp, if_neg (by norm_num)]
  decide

/-! ### Parse-side lemmas -/

theorem pyStrip_eq_self {p : Char → Bool} {l : List Char} {c d : Char}
    (hhead : l.head? = some c) (hc : p c = false)
    (hlast : l.getLast? = some d) (hd : p d = false) : pyStrip p l = l := by
  obtain ⟨c', t, rfl⟩ := List.exists_cons_of_ne_nil
    (l := l) (by rintro rfl; cases hhead)
  rw [List.head?_cons, Option.some_inj] at hhead
  subst hhead
  unfold pyStrip
  rw [List.dropWhile_cons, if_neg (by simp [hc])]
  rw [List.rdropWhile_eq_self_iff]
  intro hl hlast'
  rw [List.getLast?_eq_getLast _ hl, Option.some_inj] at hlast
  rw [hlast, hd] at hlast'
  cases hlast'

theorem pyFloat_eq_body (c : Char) (t : List Char)
    (h1 : c ≠ '+') (h2 : c ≠ '-') : pyFloat (c :: t) = pyFloatBody (c :: t) := by
  unfold pyFloat
  split
  · rename_i heq
    injection heq with hc _
    exact absurd hc h1
  · rename_i heq
    injection heq with hc _
    exact absurd hc h2
  · rfl

theorem intFullmatch_false_of_mem {l : List Char} {c : Char} (hm : c ∈ l)
    (h1 : c.isDigit = false) (h2 : c ≠ '+') (h3 : c ≠ '-') :
    intFullmatch l = false := by
  cases l with
  | nil => rfl
  | cons d r =>
    show (if (d == '+' || d == '-') = true then !r.isEmpty && r.all Char.isDigit
      else (d :: r).all Char.isDigit) = false
    by_cases hd : (d == '+' || d == '-') = true
    · rw [if_pos hd]
      have hcr : c ∈ r := by
        rcases List.mem_cons.mp hm with rfl | hr
        · rcases Bool.or_eq_true_iff.mp hd with h | h
          · exact absurd (by simpa using h) h2
          · exact absurd (by simpa using h) h3
        · exact hr
      have : r.all Char.isDigit = false := by
        rcases hall : r.all Char.isDigit with _ | _
        · rfl
        · exact absurd (List.all_eq_true.mp hall c hcr) (by simp [h1])
      simp [this]
    · rw [if_neg hd]
      rcases hall : (d :: r).all Char.isDigit with _ | _
      · rfl
      · exact absurd (List.all_eq_true.mp hall c hm) (by simp [h1])

theorem count_dot_digits_dot {a b : List Char}
    (ha : ∀ c ∈ a, c.isDigit = true) (hb : ∀ c ∈ b, c.isDigit = true) :
    (a ++ '.' :: b).count '.' = 1 := by
  rw [List.count_append, List.count_cons_self,
    count_eq_zero_of_all fun d hd => ne_of_isDigit (ha d hd) (by decide),
    count_eq_zero_of_all fun d hd => ne_of_isDigit (hb d hd) (by decide)]

theorem pyFloatBody_digits_dot (a b : List Char)
    (ha : ∀ c ∈ a, c.isDigit = true) (hb : ∀ c ∈ b, c.isDigit = true)
    (hbne : b ≠ []) :
    pyFloatBody (a ++ '.' :: b)
      = some ((digitsVal a : ℚ) + (digitsVal b : ℚ) / 10 ^ b.length) := by
  have hcount : (a ++ '.' :: b).count '.' = 1 :=
    count_dot_digits_dot ha hb
  have hdot : ∀ c ∈ a, (fun c => !(c == '.')) c = true := by
    intro c hc
    simp only [Bool.not_eq_true', beq_eq_false_iff_ne, ne_eq]
    exact ne_of_isDigit (ha c hc) (by decide)
  have htake : (a ++ '.' :: b).takeWhile (fun c => !(c == '.')) = a := by
    rw [List.takeWhile_append_of_pos hdot, List.takeWhile_cons]
    simp
  have hdrop : (a ++ '.' :: b).dropWhile (fun c => !(c == '.')) = '.' :: b := by
    rw [List.dropWhile_append_of_pos hdot, List.dropWhile_cons]
    simp
  unfold pyFloatBody
  rw [hcount]
  rw [if_neg (by simp), if_pos (by simp)]
  simp only [htake, hdrop, List.tail_cons]
  rw [if_pos]
  rw [Bool.and_eq_true, Bool.and_eq_true]
  refine ⟨⟨List.all_eq_true.mpr ha, List.all_eq_true.mpr hb⟩, ?_⟩
  simp [hbne]

theorem isPySpace_of_digit {c : Char} (h : c.isDigit = true) :
    isPySpace c = false := by
  cases hps : isPySpace c
  · rfl
  · exfalso
    simp only [isPySpace, Bool.or_eq_true, beq_iff_eq] at hps
    rcases hps with ((((((rfl | rfl) | rfl) | rfl) | rfl) | rfl) | rfl) | rfl <;>
      exact absurd h (by decide)

theorem isStripSym_of_digit {c : Char} (h : c.isDigit = true) :
    isStripSym c = false := by
  cases hps : isStripSym c
  · rfl
  · exfalso
    simp only [isStripSym, Bool.or_eq_true, beq_iff_eq] at hps
    rcases hps with ((((rfl | rfl) | rfl) | rfl) | rfl) | rfl <;>
      exact absurd h (by decide)

theorem nfkcChar_of_digit {c : Char} (h : c.isDigit = true) :
    nfkcChar c = c := by
  unfold nfkcChar
  rw [if_neg]
  simp only [Bool.or_eq_true, beq_iff_eq, not_or]
  exact ⟨ne_of_isDigit h (by decide), ne_of_isDigit h (by decide)⟩

theorem fmt_pipeline (x : ℚ) (hx : 0 ≤ x) :
    pyStrip isPySpace (fmt_eur x).data = (fmt_eur x).data
    ∧ cleanCurrency (fmt_eur x).data
      = natDigits (fmtIntPart x)
        ++ ',' :: padZeros 2 (natDigits (fmtFracPart x)) := by
  obtain ⟨d0, dt, hD⟩ :=
    List.exists_cons_of_ne_nil (natDigits_ne_nil (fmtIntPart x))
  have hd0 : d0.isDigit = true :=
    natDigits_isDigit _ d0 (hD ▸ List.mem_cons_self d0 dt)
  have hF : ∀ c ∈ padZeros 2 (natDigits (fmtFracPart x)), c.isDigit = true :=
    padZeros_isDigit 2 _
  have hFne : padZeros 2 (natDigits (fmtFracPart x)) ≠ [] := padZeros_ne_nil 2 _
  have hfl : ((padZeros 2 (natDigits (fmtFracPart x))).getLast hFne).isDigit
      = true := hF _ (List.getLast_mem hFne)
  have hdata : (fmt_eur x).data
      = group3 ' ' (natDigits (fmtIntPart x))
        ++ ',' :: padZeros 2 (natDigits (fmtFracPart x)) ++ [' ', '€'] := by
    rw [fmt_eur_data x, if_neg (not_lt.mpr hx), List.nil_append]
  have hhead : (fmt_eur x).data.head? = some d0 := by
    rw [hdata, List.head?_append, List.head?_append, head?_group3, hD]
    rfl
  have hlast : (fmt_eur x).data.getLast? = some '€' := by
    rw [hdata]
    rw [show group3 ' ' (natDigits (fmtIntPart x))
        ++ ',' :: padZeros 2 (natDigits (fmtFracPart x)) ++ [' ', '€']
        = (group3 ' ' (natDigits (fmtIntPart x))
          ++ ',' :: padZeros 2 (natDigits (fmtFracPart x)) ++ [' ']) ++ ['€']
      by simp]
    exact List.getLast?_concat _
  have hstrip1 : pyStrip isPySpace (fmt_eur x).data = (fmt_eur x).data :=
    pyStrip_eq_self hhead (isPySpace_of_digit hd0) hlast (by decide)
  have hcharclass : ∀ c ∈ (fmt_eur x).data,
      c.isDigit = true ∨ c = ' ' ∨ c = ',' ∨ c = '€' := by
    intro c hc
    rw [hdata] at hc
    simp only [List.mem_append, List.mem_cons, List.not_mem_nil,
      or_false] at hc
    rcases hc with (hg | rfl | hf) | rfl | rfl
    · rcases mem_group3 hg with hm | rfl
      · exact Or.inl (natDigits_isDigit _ c hm)
      · exact Or.inr (Or.inl rfl)
    · exact Or.inr (Or.inr (Or.inl rfl))
    · exact Or.inl (hF c hf)
    · exact Or.inr (Or.inl rfl)
    · exact Or.inr (Or.inr (Or.inr rfl))
  have hmap : (fmt_eur x).data.map nfkcChar = (fmt_eur x).data :=
    list_map_self fun c hc => by
      rcases hcharclass c hc with h | rfl | rfl | rfl
      · exact nfkcChar_of_digit h
      · rfl
      · rfl
      · rfl
  have hfilter1 : (fmt_eur x).data.filter (fun c => !(isStripSym c))
      = natDigits (fmtIntPart x)
        ++ ',' :: padZeros 2 (natDigits (fmtFracPart x)) := by
    rw [hdata, List.filter_append, List.filter_append]
    rw [filter_group3 (by decide) _ (fun c hc => by
      simp [isStripSym_of_digit (natDigits_isDigit _ c hc)])]
    rw [List.filter_cons, if_pos (by decide),
      List.filter_eq_self.mpr (fun c hc => by
        simp [isStripSym_of_digit (hF c hc)])]
    rw [show List.filter (fun c => !(isStripSym c)) [' ', '€'] = [] from rfl,
      List.append_nil]
  have hhead2 : (natDigits (fmtIntPart x)
      ++ ',' :: padZeros 2 (natDigits (fmtFracPart x))).head? = some d0 := by
    rw [List.head?_append, hD]
    rfl
  have hlast2 : (natDigits (fmtIntPart x)
      ++ ',' :: padZeros 2 (natDigits (fmtFracPart x))).getLast?
      = some ((padZeros 2 (natDigits (fmtFracPart x))).getLast hFne) := by
    rw [List.getLast?_append,
      show (',' :: padZeros 2 (natDigits (fmtFracPart x)))
        = [','] ++ padZeros 2 (natDigits (fmtFracPart x)) from rfl,
      List.getLast?_append, List.getLast?_eq_getLast _ hFne]
    rfl
  have hstrip2 : pyStrip isPySpace (natDigits (fmtIntPart x)
      ++ ',' :: padZeros 2 (natDigits (fmtFracPart x)))
      = natDigits (fmtIntPart x)
        ++ ',' :: padZeros 2 (natDigits (fmtFracPart x)) :=
    pyStrip_eq_self hhead2 (isPySpace_of_digit hd0) hlast2
      (isPySpace_of_digit hfl)
  have hkeep : (natDigits (fmtIntPart x)
      ++ ',' :: padZeros 2 (natDigits (fmtFracPart x))).filter keepNumChar
      = natDigits (fmtIntPart x)
        ++ ',' :: padZeros 2 (natDigits (fmtFracPart x)) :=
    List.filter_eq_self.mpr fun c hc => by
      simp only [List.mem_append, List.mem_cons] at hc
      rcases hc with h | rfl | h
      · simp [keepNumChar, natDigits_isDigit _ c h]
      · decide
      · simp [keepNumChar, hF c h]
  refine ⟨hstrip1, ?_⟩
  unfold cleanCurrency
  rw [hstrip1, hmap, hfilter1, hstrip2, hkeep]

/-! ### C6: format/parse round trip -/

/-- C6.  For every non-negative amount `x`, parsing the formatted string
recovers `x` rounded to two-decimal precision (the formatter's
half-to-even rounding): `parse_currency (fmt_eur x) = round2 x`. -/
theorem parse_fmt_roundtrip (x : ℚ) (hx : 0 ≤ x) :
    parse_currency (some (fmt_eur x)) = some (round2 x) := by
  obtain ⟨hstrip, hclean⟩ := fmt_pipeline x hx
  obtain ⟨d0, dt, hD⟩ :=
    List.exists_cons_of_ne_nil (natDigits_ne_nil (fmtIntPart x))
  have hd0 : d0.isDigit = true :=
    natDigits_isDigit _ d0 (hD ▸ List.mem_cons_self d0 dt)
  have hDdig : ∀ c ∈ natDigits (fmtIntPart x), c.isDigit = true :=
    natDigits_isDigit _
  have hF : ∀ c ∈ padZeros 2 (natDigits (fmtFracPart x)), c.isDigit = true :=
    padZeros_isDigit 2 _
  have hFne : padZeros 2 (natDigits (fmtFracPart x)) ≠ [] := padZeros_ne_nil 2 _
  have hne : (fmt_eur x).data ≠ [] := by
    rw [fmt_eur_data x]
    simp
  simp only [parse_currency]
  rw [hstrip, if_neg (by simp [List.isEmpty_iff, hne]), hclean]
  have hcomma_not_D : (',' : Char) ∉ natDigits (fmtIntPart x) :=
    not_mem_of_digits hDdig (by decide)
  have hcomma_not_F : (',' : Char) ∉ padZeros 2 (natDigits (fmtFracPart x)) :=
    not_mem_of_digits hF (by decide)
  have hcount_comma : (natDigits (fmtIntPart x)
      ++ ',' :: padZeros 2 (natDigits (fmtFracPart x))).count ',' = 1 := by
    rw [List.count_append, List.count_cons_self,
      count_eq_zero_of_all fun d hd => ne_of_isDigit (hDdig d hd) (by decide),
      count_eq_zero_of_all fun d hd => ne_of_isDigit (hF d hd) (by decide)]
  have hcount_dot : (natDigits (fmtIntPart x)
      ++ ',' :: padZeros 2 (natDigits (fmtFracPart x))).count '.' = 0 :=
    count_eq_zero_of_all fun d hd => by
      simp only [List.mem_append, List.mem_cons] at hd
      rcases hd with h | rfl | h
      · exact ne_of_isDigit (hDdig d h) (by decide)
      · decide
      · exact ne_of_isDigit (hF d h) (by decide)
  have hfull : intFullmatch (natDigits (fmtIntPart x)
      ++ ',' :: padZeros 2 (natDigits (fmtFracPart x))) = false :=
    intFullmatch_false_of_mem (c := ',') (by simp) (by decide) (by decide)
      (by decide)
  unfold parseCleaned
  rw [if_neg (by simp [hfull]), if_pos (by simp [hcount_comma, hcount_dot])]
  rw [replChar_append, replChar_of_not_mem '.' hcomma_not_D,
    show replChar ',' '.' (',' :: padZeros 2 (natDigits (fmtFracPart x)))
      = '.' :: replChar ',' '.' (padZeros 2 (natDigits (fmtFracPart x)))
      from rfl,
    replChar_of_not_mem '.' hcomma_not_F]
  rw [hD, List.cons_append,
    pyFloat_eq_body d0 _ (ne_of_isDigit hd0 (by decide))
      (ne_of_isDigit hd0 (by decide)),
    ← List.cons_append, ← hD]
  rw [pyFloatBody_digits_dot _ _ hDdig hF hFne]
  rw [digitsVal_natDigits, digitsVal_padZeros, digitsVal_natDigits,
    padZeros_frac_length]
  rw [Option.some_inj]
  unfold round2
  rw [← fmtCents_cast x hx]
  unfold fmtIntPart fmtFracPart
  generalize fmtCents x = n
  have h100 : (100 : ℚ) * ((n / 100 : ℕ) : ℚ) + ((n % 100 : ℕ) : ℚ)
      = (n : ℚ) := by
    exact_mod_cast Nat.div_add_mod n 100
  rw [show ((10 : ℚ) ^ 2) = 100 by norm_num]
  field_simp
  linarith

/-- Witness for `parse_fmt_roundtrip` at `x = 1234.5`. -/
theorem parse_fmt_roundtrip_witness :
    parse_currency (some (fmt_eur 1234.5)) = some (round2 1234.5) :=
  parse_fmt_roundtrip 1234.5 (by norm_num)

/-! ### C3: locale parsing and the rightmost-separator rule -/

/-- C3.  `parse_currency` yields exactly 1234.56 on the French
(`"1 234,56 €"`), US (`"1234.56"`) and Swiss (`"1'234.56"`) forms; and
in general, whenever the cleaned string has both separators, or more
than one occurrence of a single separator kind, the branch taken treats
the separator at the rightmost position as the decimal separator and
removes the other symbol's occurrences before the numeric conversion. -/
theorem parse_currency_locales (v : String)
    (hc : (1 ≤ (cleanCurrency v.data).count ','
            ∧ 1 ≤ (cleanCurrency v.data).count '.')
          ∨ (2 ≤ (cleanCurrency v.data).count ','
            ∧ (cleanCurrency v.data).count '.' = 0)
          ∨ (2 ≤ (cleanCurrency v.data).count '.'
            ∧ (cleanCurrency v.data).count ',' = 0)) :
    parse_currency (some "1 234,56 €") = some 1234.56
    ∧ parse_currency (some "1234.56") = some 1234.56
    ∧ parse_currency (some (String.mk
        ['1', Char.ofNat 39, '2', '3', '4', '.', '5', '6'])) = some 1234.56
    ∧ parse_currency (some v)
        = (if rfindI '.' (cleanCurrency v.data)
              > rfindI ',' (cleanCurrency v.data)
           then pyFloat ((cleanCurrency v.data).filter (fun c => !(c == ',')))
           else pyFloat (replChar ',' '.'
              ((cleanCurrency v.data).filter (fun c => !(c == '.'))))) := by
  have hval : some (((1234 : ℕ) : ℚ) + ((56 : ℕ) : ℚ) / 10 ^ 2)
      = some (1234.56 : ℚ) := by
    rw [Option.some_inj]
    push_cast
    norm_num
  have hvv : pyFloatBody (['1', '2', '3', '4'] ++ '.' :: ['5', '6'])
      = some (1234.56 : ℚ) := by
    rw [pyFloatBody_digits_dot ['1', '2', '3', '4'] ['5', '6']
      (by decide) (by decide) (by decide)]
    rw [show digitsVal ['1', '2', '3', '4'] = 1234 from by decide,
      show digitsVal ['5', '6'] = 56 from by decide,
      show (['5', '6'] : List Char).length = 2 from rfl]
    exact hval
  refine ⟨?_, ?_, ?_, ?_⟩
  · rw [show parse_currency (some "1 234,56 €")
        = pyFloatBody (['1', '2', '3', '4'] ++ '.' :: ['5', '6']) from rfl]
    exact hvv
  · rw [show parse_currency (some "1234.56")
        = pyFloatBody (['1', '2', '3', '4'] ++ '.' :: ['5', '6']) from rfl]
    exact hvv
  · rw [show parse_currency (some (String.mk
        ['1', Char.ofNat 39, '2', '3', '4', '.', '5', '6']))
        = pyFloatBody (['1', '2', '3', '4'] ++ '.' :: ['5', '6']) from rfl]
    exact hvv
  · have hs0 : ¬(pyStrip isPySpace v.data).isEmpty = true := by
      intro h
      rw [List.isEmpty_iff] at h
      have hcl : cleanCurrency v.data = [] := by
        unfold cleanCurrency
        rw [h]
        rfl
      rw [hcl] at hc
      rcases hc with ⟨h1, _⟩ | ⟨h1, _⟩ | ⟨h1, _⟩ <;> simp at h1
    have hmem : ∀ c : Char, 1 ≤ (cleanCurrency v.data).count c →
        c ∈ cleanCurrency v.data := by
      intro c h1
      by_contra hnm
      rw [List.count_eq_zero.mpr hnm] at h1
      omega
    have hfull : intFullmatch (cleanCurrency v.data) = false := by
      rcases hc with ⟨h1, _⟩ | ⟨h1, _⟩ | ⟨h1, _⟩
      · exact intFullmatch_false_of_mem (hmem ',' h1) (by decide) (by decide)
          (by decide)
      · exact intFullmatch_false_of_mem (hmem ',' (by omega)) (by decide)
          (by decide) (by decide)
      · exact intFullmatch_false_of_mem (hmem '.' (by omega)) (by decide)
          (by decide) (by decide)
    have hb2 : ((cleanCurrency v.data).count ',' == 1
        && (cleanCurrency v.data).count '.' == 0) = false := by
      rcases hc with ⟨h1, h2⟩ | ⟨h1, h2⟩ | ⟨h1, h2⟩
      · have : ((cleanCurrency v.data).count '.' == 0) = false :=
          beq_eq_false_iff_ne.mpr (by omega)
        simp [this]
      · have : ((cleanCurrency v.data).count ',' == 1) = false :=
          beq_eq_false_iff_ne.mpr (by omega)
        simp [this]
      · have : ((cleanCurrency v.data).count ',' == 1) = false :=
          beq_eq_false_iff_ne.mpr (by omega)
        simp [this]
    have hb3 : ((cleanCurrency v.data).count '.' == 1
        && (cleanCurrency v.data).count ',' == 0) = false := by
      rcases hc with ⟨h1, h2⟩ | ⟨h1, h2⟩ | ⟨h1, h2⟩
      · have : ((cleanCurrency v.data).count ',' == 0) = false :=
          beq_eq_false_iff_ne.mpr (by omega)
        simp [this]
      · have : ((cleanCurrency v.data).count '.' == 1) = false :=
          beq_eq_false_iff_ne.mpr (by omega)
        simp [this]
      · have : ((cleanCurrency v.data).count '.' == 1) = false :=
          beq_eq_false_iff_ne.mpr (by omega)
        simp [this]
    simp only [parse_currency]
    rw [if_neg hs0]
    unfold parseCleaned
    rw [if_neg (by simp [hfull]), if_neg (by simp [hb2]),
      if_neg (by simp [hb3])]

/-- Witness for `parse_currency_locales` at the mixed-separator input
`"1.234,56"` (both separators present; the comma is rightmost). -/
theorem parse_currency_locales_witness :
    parse_currency (some "1.234,56")
      = (if rfindI '.' (cleanCurrency ("1.234,56" : String).data)
            > rfindI ',' (cleanCurrency ("1.234,56" : String).data)
         then pyFloat ((cleanCurrency ("1.234,56" : String).data).filter
            (fun c => !(c == ',')))
         else pyFloat (replChar ',' '.'
            ((cleanCurrency ("1.234,56" : String).data).filter
              (fun c => !(c == '.'))))) :=
  (parse_currency_locales "1.234,56" (Or.inl ⟨by decide, by decide⟩)).2.2.2

/-! ### slugify lemmas -/

theorem subRuns_nil (p : Char → Bool) (r : Char) : subRuns p r [] = [] := by
  simp [subRuns]

theorem subRuns_cons (p : Char → Bool) (r c : Char) (cs : List Char) :
    subRuns p r (c :: cs)
      = if p c then r :: subRuns p r (cs.dropWhile p)
        else c :: subRuns p r cs := by
  simp [subRuns]

theorem dropWhile_head_false {q : Char → Bool} :
    ∀ {l : List Char} {d : Char} {ds : List Char},
      l.dropWhile q = d :: ds → q d = false := by
  intro l
  induction l with
  | nil => intro d ds h; cases h
  | cons c t ih =>
    intro d ds h
    rw [List.dropWhile_cons] at h
    cases hc : q c
    · rw [hc] at h
      simp only [Bool.false_eq_true, if_false] at h
      obtain ⟨rfl, -⟩ := List.cons.injEq .. ▸ h
      exact hc
    · rw [hc] at h
      simp only [if_true] at h
      exact ih h

theorem ne_und_of_not_p {p : Char → Bool} (hp : p '_' = true) {c : Char}
    (hc : p c = false) : (c == '_') = false := by
  refine beq_eq_false_iff_ne.mpr fun he => ?_
  rw [he, hp] at hc
  cases hc

theorem dropWhile_und_subRuns {p : Char → Bool} (hp : p '_' = true) :
    ∀ N l, l.length ≤ N →
      (subRuns p '_' l).dropWhile (fun c => c == '_')
        = subRuns p '_' (l.dropWhile p) := by
  intro N
  induction N with
  | zero =>
    intro l hl
    rw [List.length_eq_zero.mp (Nat.le_zero.mp hl)]
    simp [subRuns_nil]
  | succ N ih =>
    intro l hl
    cases l with
    | nil => simp [subRuns_nil]
    | cons c cs =>
      cases hc : p c
      · rw [subRuns_cons, if_neg (by simp [hc]), List.dropWhile_cons,
          if_neg (by simp [ne_und_of_not_p hp hc]), List.dropWhile_cons,
          if_neg (by simp [hc]), subRuns_cons, if_neg (by simp [hc])]
      · rw [subRuns_cons, if_pos (by simp [hc]), List.dropWhile_cons,
          if_pos (by simp), List.dropWhile_cons, if_pos (by simp [hc])]
        have hlen : (cs.dropWhile p).length ≤ N := by
          have h1 := List.Sublist.length_le
            (List.IsSuffix.sublist (List.dropWhile_suffix (l := cs) p))
          simp only [List.length_cons] at hl
          omega
        rw [ih (cs.dropWhile p) hlen, List.dropWhile_idempotent]

theorem collapse_subRuns {p : Char → Bool} (hp : p '_' = true) :
    ∀ N l, l.length ≤ N →
      subRuns (fun c => c == '_') '_' (subRuns p '_' l) = subRuns p '_' l := by
  intro N
  induction N with
  | zero =>
    intro l hl
    rw [List.length_eq_zero.mp (Nat.le_zero.mp hl)]
    simp [subRuns_nil]
  | succ N ih =>
    intro l hl
    cases l with
    | nil => simp [subRuns_nil]
    | cons c cs =>
      cases hc : p c
      · rw [subRuns_cons, if_neg (by simp [hc]), subRuns_cons,
          if_neg (by simp [ne_und_of_not_p hp hc])]
        have hlen : cs.length ≤ N := by
          simp only [List.length_cons] at hl
          omega
        rw [ih cs hlen]
      · rw [subRuns_cons, if_pos (by simp [hc]), subRuns_cons,
          if_pos (by simp)]
        have hlen : (cs.dropWhile p).length ≤ N := by
          have h1 := List.Sublist.length_le
            (List.IsSuffix.sublist (List.dropWhile_suffix (l := cs) p))
          simp only [List.length_cons] at hl
          omega
        rw [dropWhile_und_subRuns hp ((cs.dropWhile p).length) _ le_rfl,
          List.dropWhile_idempotent, ih (cs.dropWhile p) hlen]

theorem subRuns_append_neg {p : Char → Bool} (r : Char) {t : List Char}
    (ht : ∀ a ∈ t, p a = false) (z : List Char) :
    subRuns p r (t ++ z) = t ++ subRuns p r z := by
  induction t with
  | nil => rfl
  | cons a t' ih =>
    rw [List.cons_append, subRuns_cons,
      if_neg (by simp [ht a (List.mem_cons_self a t')]), List.cons_append,
      ih fun b hb => ht b (List.mem_cons_of_mem a hb)]

/-- Maximal alphanumeric words of a string: the runs of characters on
which `p` is false, in order (proof device for the slug equivalence). -/
def wordsOf (p : Char → Bool) : List Char → List (List Char)
  | [] => []
  | c :: cs =>
    if p c then wordsOf p (cs.dropWhile p)
    else (c :: cs.takeWhile (fun x => !p x))
      :: wordsOf p (cs.dropWhile (fun x => !p x))
termination_by l => l.length
decreasing_by
  · simp only [List.length_cons]
    exact Nat.lt_succ_of_le
      (List.Sublist.length_le (List.IsSuffix.sublist (List.dropWhile_suffix p)))
  · simp only [List.length_cons]
    exact Nat.lt_succ_of_le
      (List.Sublist.length_le (List.IsSuffix.sublist (List.dropWhile_suffix _)))

theorem wordsOf_nil (p : Char → Bool) : wordsOf p [] = [] := by
  simp [wordsOf]

theorem wordsOf_cons (p : Char → Bool) (c : Char) (cs : List Char) :
    wordsOf p (c :: cs)
      = if p c then wordsOf p (cs.dropWhile p)
        else (c :: cs.takeWhile (fun x => !p x))
          :: wordsOf p (cs.dropWhile (fun x => !p x)) := by
  simp [wordsOf]

/-- Separator-joined concatenation of the words (proof device). -/
def joinUnd : List (List Char) → List Char
  | [] => []
  | [w] => w
  | w :: u :: rest => w ++ '_' :: joinUnd (u :: rest)

theorem joinUnd_cons_cons (w u : List Char) (rest : List (List Char)) :
    joinUnd (w :: u :: rest) = w ++ '_' :: joinUnd (u :: rest) :=
  rfl

theorem wordsOf_ne_nil {p : Char → Bool} :
    ∀ N l, l.length ≤ N → ∀ u ∈ wordsOf p l, u ≠ [] := by
  intro N
  induction N with
  | zero =>
    intro l hl
    rw [List.length_eq_zero.mp (Nat.le_zero.mp hl), wordsOf_nil]
    intro u hu
    cases hu
  | succ N ih =>
    intro l hl u hu
    cases l with
    | nil =>
      rw [wordsOf_nil] at hu
      cases hu
    | cons c cs =>
      rw [wordsOf_cons] at hu
      simp only [List.length_cons] at hl
      by_cases hc : p c = true
      · rw [if_pos hc] at hu
        refine ih (cs.dropWhile p) ?_ u hu
        have := List.Sublist.length_le
          (List.IsSuffix.sublist (List.dropWhile_suffix (l := cs) p))
        omega
      · rw [if_neg hc] at hu
        rcases List.mem_cons.mp hu with rfl | hu'
        · simp
        · refine ih (cs.dropWhile fun x => !p x) ?_ u hu'
          have := List.Sublist.length_le
            (List.IsSuffix.sublist (List.dropWhile_suffix (l := cs)
              fun x => !p x))
          omega

theorem joinUnd_eq_nil_iff {W : List (List Char)}
    (h : ∀ u ∈ W, u ≠ []) : joinUnd W = [] ↔ W = [] := by
  cases W with
  | nil => simp [joinUnd]
  | cons w rest =>
    cases rest with
    | nil =>
      simp only [joinUnd]
      exact ⟨fun he => absurd he (h w (by simp)), fun he => by cases he⟩
    | cons u rest' =>
      rw [joinUnd_cons_cons]
      constructor
      · intro he
        rcases List.append_eq_nil.mp he with ⟨-, h2⟩
        cases h2
      · intro he
        cases he

theorem wordsOf_all_p {p : Char → Bool} {l : List Char}
    (h : ∀ a ∈ l, p a = true) : wordsOf p l = [] := by
  cases l with
  | nil => exact wordsOf_nil p
  | cons c cs =>
    rw [wordsOf_cons, if_pos (h c (by simp)),
      List.dropWhile_eq_nil_iff.mpr fun x hx => h x (by simp [hx]),
      wordsOf_nil]

theorem wordsOf_dropWhile_p (p : Char → Bool) (l : List Char) :
    wordsOf p (l.dropWhile p) = wordsOf p l := by
  cases l with
  | nil => rfl
  | cons c cs =>
    rw [List.dropWhile_cons, wordsOf_cons]
    by_cases hc : p c = true
    · rw [if_pos hc, if_pos hc]
    · rw [if_neg hc, if_neg hc, wordsOf_cons, if_neg hc]

theorem wordsOf_dropWhile_ws {p ws : Char → Bool}
    (hws : ∀ c, ws c = true → p c = true) (l : List Char) :
    wordsOf p (l.dropWhile ws) = wordsOf p l := by
  induction l with
  | nil => rfl
  | cons c cs ih =>
    rw [List.dropWhile_cons]
    by_cases hc : ws c = true
    · rw [if_pos hc, ih, wordsOf_cons, if_pos (hws c hc),
        wordsOf_dropWhile_p]
    · rw [if_neg hc]

theorem rdropWhile_append_dist (q : Char → Bool) (X Y : List Char) :
    List.rdropWhile q (X ++ Y)
      = if List.rdropWhile q Y = [] then List.rdropWhile q X
        else X ++ List.rdropWhile q Y := by
  unfold List.rdropWhile
  rw [List.reverse_append, List.dropWhile_append]
  by_cases h : List.dropWhile q Y.reverse = []
  · rw [if_pos (by simp [h]), if_pos (by simp [h])]
  · rw [if_neg (by simp [h]), if_neg (by simp [h]), List.reverse_append,
      List.reverse_reverse]

theorem rdropWhile_eq_self_of_all {q : Char → Bool} {l : List Char}
    (h : ∀ a ∈ l, q a = false) : List.rdropWhile q l = l := by
  rw [List.rdropWhile_eq_self_iff]
  intro hl hq
  rw [h _ (List.getLast_mem hl)] at hq
  cases hq

theorem rdropWhile_append_rtakeWhile_eq (q : Char → Bool) (l : List Char) :
    List.rdropWhile q l ++ List.rtakeWhile q l = l := by
  unfold List.rdropWhile List.rtakeWhile
  rw [← List.reverse_append, ← List.reverse_reverse l]
  congr 1
  rw [List.reverse_reverse]
  exact List.takeWhile_append_dropWhile q l.reverse

theorem wordsOf_append_all_p {p : Char → Bool} {S : List Char}
    (hS : ∀ a ∈ S, p a = true) :
    ∀ N A, A.length ≤ N → wordsOf p (A ++ S) = wordsOf p A := by
  intro N
  induction N with
  | zero =>
    intro A hA
    rw [List.length_eq_zero.mp (Nat.le_zero.mp hA), List.nil_append,
      wordsOf_nil, wordsOf_all_p hS]
  | succ N ih =>
    intro A hA
    cases A with
    | nil => rw [List.nil_append, wordsOf_nil, wordsOf_all_p hS]
    | cons c cs =>
      simp only [List.length_cons] at hA
      have hdroplen : (cs.dropWhile p).length ≤ N := by
        have := List.Sublist.length_le
          (List.IsSuffix.sublist (List.dropWhile_suffix (l := cs) p))
        omega
      have hdroplen2 : (cs.dropWhile fun x => !p x).length ≤ N := by
        have := List.Sublist.length_le
          (List.IsSuffix.sublist (List.dropWhile_suffix (l := cs)
            fun x => !p x))
        omega
      rw [List.cons_append, wordsOf_cons, wordsOf_cons]
      by_cases hc : p c = true
      · rw [if_pos hc, if_pos hc, List.dropWhile_append]
        by_cases hcs : (cs.dropWhile p).isEmpty = true
        · rw [if_pos hcs, List.dropWhile_eq_nil_iff.mpr hS,
            List.isEmpty_iff.mp hcs]
        · rw [if_neg hcs]
          exact ih (cs.dropWhile p) hdroplen
      · rw [if_neg hc, if_neg hc]
        by_cases hall : (cs.dropWhile fun x => !p x) = []
        · have hcsall : ∀ x ∈ cs, (!p x) = true :=
            List.dropWhile_eq_nil_iff.mp hall
          have htake : cs.takeWhile (fun x => !p x) = cs :=
            List.takeWhile_eq_self_iff.mpr hcsall
          have htakeS : S.takeWhile (fun x => !p x) = [] := by
            cases S with
            | nil => rfl
            | cons s S' =>
              rw [List.takeWhile_cons, if_neg (by simp [hS s (by simp)])]
          have hdropS : S.dropWhile (fun x => !p x) = S := by
            cases S with
            | nil => rfl
            | cons s S' =>
              rw [List.dropWhile_cons, if_neg (by simp [hS s (by simp)])]
          rw [List.takeWhile_append, if_pos (by rw [htake]), htake, htakeS,
            List.append_nil, List.dropWhile_append, if_pos (by simp [hall]),
            hdropS, hall, wordsOf_all_p hS, wordsOf_nil]
        · have hlt : ¬((cs.takeWhile fun x => !p x).length = cs.length) := by
            intro hlen
            have hself : cs.takeWhile (fun x => !p x) = cs :=
              List.IsPrefix.eq_of_length (List.takeWhile_prefix _) hlen
            exact hall (List.dropWhile_eq_nil_iff.mpr
              (List.takeWhile_eq_self_iff.mp hself))
          rw [List.takeWhile_append, if_neg hlt, List.dropWhile_append,
            if_neg (by simp [hall])]
          rw [ih (cs.dropWhile fun x => !p x) hdroplen2]

theorem joinUnd_single (w : List Char) : joinUnd [w] = w := rfl

theorem stripUnd_subRuns {p : Char → Bool} (hp : p '_' = true) :
    ∀ N l, l.length ≤ N →
      pyStrip (fun c => c == '_') (subRuns p '_' l) = joinUnd (wordsOf p l) := by
  intro N
  induction N with
  | zero =>
    intro l hl
    rw [List.length_eq_zero.mp (Nat.le_zero.mp hl), subRuns_nil, wordsOf_nil]
    rfl
  | succ N ih =>
    intro l hl
    cases l with
    | nil =>
      rw [subRuns_nil, wordsOf_nil]
      rfl
    | cons c cs =>
      simp only [List.length_cons] at hl
      by_cases hc : p c = true
      · rw [subRuns_cons, if_pos hc, wordsOf_cons, if_pos hc]
        have hstep : pyStrip (fun c => c == '_')
            ('_' :: subRuns p '_' (cs.dropWhile p))
            = pyStrip (fun c => c == '_') (subRuns p '_' (cs.dropWhile p)) := by
          unfold pyStrip
          rw [List.dropWhile_cons, if_pos (by simp)]
        rw [hstep]
        refine ih (cs.dropWhile p) ?_
        have := List.Sublist.length_le
          (List.IsSuffix.sublist (List.dropWhile_suffix (l := cs) p))
        omega
      · have hc' : p c = false := by simpa using hc
        have hcne : ((c == '_') : Bool) = false := ne_und_of_not_p hp hc'
        have hq : ∀ a ∈ cs.takeWhile (fun x => !p x), p a = false :=
          fun a ha => by simpa using List.mem_takeWhile_imp ha
        rw [subRuns_cons, if_neg hc, wordsOf_cons, if_neg hc]
        have hsplit : subRuns p '_' cs
            = cs.takeWhile (fun x => !p x)
              ++ subRuns p '_' (cs.dropWhile fun x => !p x) := by
          conv_lhs =>
            rw [← List.takeWhile_append_dropWhile (fun x => !p x) cs]
          exact subRuns_append_neg '_' hq _
        rw [hsplit]
        unfold pyStrip
        rw [List.dropWhile_cons, if_neg (by simp [hcne])]
        rw [show c :: (cs.takeWhile (fun x => !p x)
              ++ subRuns p '_' (cs.dropWhile fun x => !p x))
            = (c :: cs.takeWhile (fun x => !p x))
              ++ subRuns p '_' (cs.dropWhile fun x => !p x) from rfl]
        rw [rdropWhile_append_dist]
        have hct : List.rdropWhile (fun c => c == '_')
            (c :: cs.takeWhile fun x => !p x)
            = c :: cs.takeWhile (fun x => !p x) :=
          rdropWhile_eq_self_of_all (by
            intro a ha
            rcases List.mem_cons.mp ha with rfl | ha'
            · exact hcne
            · exact ne_und_of_not_p hp (hq a ha'))
        rcases hrest : cs.dropWhile (fun x => !p x) with _ | ⟨d, ds⟩
        · rw [subRuns_nil, List.rdropWhile_nil, if_pos rfl, hct,
            wordsOf_nil, joinUnd_single]
        · have hd : p d = true := by
            have := dropWhile_head_false (q := fun x => !p x) hrest
            simpa using this
          have hlen1 : (d :: ds).length ≤ cs.length := by
            rw [← hrest]
            exact List.Sublist.length_le
              (List.IsSuffix.sublist (List.dropWhile_suffix _))
          have hKlen : (ds.dropWhile p).length ≤ N := by
            have := List.Sublist.length_le
              (List.IsSuffix.sublist (List.dropWhile_suffix (l := ds) p))
            simp only [List.length_cons] at hlen1
            omega
          have hWne : ∀ u ∈ wordsOf p (ds.dropWhile p), u ≠ [] :=
            wordsOf_ne_nil ((ds.dropWhile p).length) _ le_rfl
          have hdropK : (subRuns p '_' (ds.dropWhile p)).dropWhile
                (fun c => c == '_')
              = subRuns p '_' (ds.dropWhile p) := by
            rw [dropWhile_und_subRuns hp ((ds.dropWhile p).length) _ le_rfl,
              List.dropWhile_idempotent]
          have hrK : List.rdropWhile (fun c => c == '_')
              (subRuns p '_' (ds.dropWhile p))
              = joinUnd (wordsOf p (ds.dropWhile p)) := by
            have h0 := ih (ds.dropWhile p) hKlen
            unfold pyStrip at h0
            rw [hdropK] at h0
            exact h0
          rw [subRuns_cons, if_pos hd, wordsOf_cons, if_pos hd]
          rw [show ('_' :: subRuns p '_' (ds.dropWhile p))
              = ['_'] ++ subRuns p '_' (ds.dropWhile p) from rfl,
            rdropWhile_append_dist]
          by_cases hKnil : List.rdropWhile (fun c => c == '_')
              (subRuns p '_' (ds.dropWhile p)) = []
          · have hWnil : wordsOf p (ds.dropWhile p) = [] := by
              rw [← joinUnd_eq_nil_iff hWne, ← hrK]
              exact hKnil
            rw [if_pos hKnil,
              show List.rdropWhile (fun c => c == '_') ['_'] = [] from rfl,
              if_pos rfl, hct, hWnil, joinUnd_single]
          · rw [if_neg hKnil]
            rw [if_neg (by simp)]
            rw [hrK]
            have hWne2 : wordsOf p (ds.dropWhile p) ≠ [] := by
              intro h0
              apply hKnil
              rw [hrK, h0]
              rfl
            obtain ⟨u, rest', hWeq⟩ := List.exists_cons_of_ne_nil hWne2
            rw [hWeq, joinUnd_cons_cons]
            simp

theorem slugify_eq_spec (s : String) : slugify s = slugify_spec s := by
  show String.mk (pyStrip (fun c => c == '_')
      (subRuns (fun c => c == '_') '_'
        (subRuns (fun c => !isSlugChar c) '_'
          (pyStrip isPySpace (s.data.map Char.toLower)))))
    = String.mk (pyStrip (fun c => c == '_')
        (subRuns (fun c => !isSlugChar c) '_' (s.data.map Char.toLower)))
  congr 1
  rw [collapse_subRuns (p := fun c => !isSlugChar c) (by decide)
    ((pyStrip isPySpace (s.data.map Char.toLower)).length)
    (pyStrip isPySpace (s.data.map Char.toLower)) le_rfl]
  rw [stripUnd_subRuns (by decide)
    ((pyStrip isPySpace (s.data.map Char.toLower)).length)
    (pyStrip isPySpace (s.data.map Char.toLower)) le_rfl]
  rw [stripUnd_subRuns (by decide) ((s.data.map Char.toLower).length)
    (s.data.map Char.toLower) le_rfl]
  congr 1
  have hws : ∀ c, isPySpace c = true → (!isSlugChar c) = true := by
    intro c hc
    simp only [isPySpace, Bool.or_eq_true, beq_iff_eq] at hc
    rcases hc with ((((((rfl | rfl) | rfl) | rfl) | rfl) | rfl) | rfl) | rfl <;>
      decide
  have hS : ∀ a ∈ List.rtakeWhile isPySpace
      ((s.data.map Char.toLower).dropWhile isPySpace),
      (!isSlugChar a) = true :=
    fun a ha => hws a (List.mem_rtakeWhile_imp ha)
  unfold pyStrip
  calc wordsOf (fun c => !isSlugChar c)
        (List.rdropWhile isPySpace
          ((s.data.map Char.toLower).dropWhile isPySpace))
      = wordsOf (fun c => !isSlugChar c)
          (List.rdropWhile isPySpace
            ((s.data.map Char.toLower).dropWhile isPySpace)
          ++ List.rtakeWhile isPySpace
            ((s.data.map Char.toLower).dropWhile isPySpace)) :=
        (wordsOf_append_all_p hS
          (List.rdropWhile isPySpace
            ((s.data.map Char.toLower).dropWhile isPySpace)).length
          _ le_rfl).symm
    _ = wordsOf (fun c => !isSlugChar c)
          ((s.data.map Char.toLower).dropWhile isPySpace) := by
        rw [rdropWhile_append_rtakeWhile_eq]
    _ = wordsOf (fun c => !isSlugChar c) (s.data.map Char.toLower) :=
        wordsOf_dropWhile_ws hws _

/-! ### C8: the slug and filename convention -/

/-- C8.  `slugify` computes exactly the slug the specification words
describe (`slugify_spec`: lower-case, replace every run of
non-alphanumeric characters with a single underscore, trim leading and
trailing underscores), and the generated document filename is
`{invoice_number}_{slug(nom)}_{slug(prenom)}.pdf`. -/
theorem slugify_and_filename_spec :
    (∀ s, slugify s = slugify_spec s)
    ∧ ∀ num nom prenom : String,
        invoice_filename num nom prenom
          = num ++ "_" ++ slugify nom ++ "_" ++ slugify prenom ++ ".pdf" :=
  ⟨slugify_eq_spec, fun _ _ _ => rfl⟩
